import Mathlib

/-!
Verification of the konflux-gen tool (cmd/konflux-gen/main.go).

The Go program is shallowly embedded: Go strings become `List Char` (byte
semantics; hashing goes through an explicit UTF-8 byte encoding), Go maps
become association lists with replace-on-insert semantics, and code that can
panic (out-of-range indexing or slicing) returns `Option`.
-/

namespace KonfluxGen

/-- UTF-8 encoding of a single character, as Go's `[]byte(string)` produces. -/
def charUtf8 (c : Char) : List Nat :=
  let n := c.toNat
  if n < 128 then [n]
  else if n < 2048 then [192 + n / 64, 128 + n % 64]
  else if n < 65536 then [224 + n / 4096, 128 + n / 64 % 64, 128 + n % 64]
  else [240 + n / 262144, 128 + n / 4096 % 64, 128 + n / 64 % 64, 128 + n % 64]

/-- The byte sequence of a string, as Go's `[]byte(s)`. -/
def strBytes (s : List Char) : List Nat := s.flatMap charUtf8

/-- MD5 round constants (the integer parts of `abs(sin(i+1)) * 2^32`). -/
def md5K : List Nat :=
  [3614090360, 3905402710, 606105819, 3250441966, 4118548399, 1200080426,
   2821735955, 4249261313, 1770035416, 2336552879, 4294925233, 2304563134,
   1804603682, 4254626195, 2792965006, 1236535329, 4129170786, 3225465664,
   643717713, 3921069994, 3593408605, 38016083, 3634488961, 3889429448,
   568446438, 3275163606, 4107603335, 1163531501, 2850285829, 4243563512,
   1735328473, 2368359562, 4294588738, 2272392833, 1839030562, 4259657740,
   2763975236, 1272893353, 4139469664, 3200236656, 681279174, 3936430074,
   3572445317, 76029189, 3654602809, 3873151461, 530742520, 3299628645,
   4096336452, 1126891415, 2878612391, 4237533241, 1700485571, 2399980690,
   4293915773, 2240044497, 1873313359, 4264355552, 2734768916, 1309151649,
   4149444226, 3174756917, 718787259, 3951481745]

/-- MD5 per-round left-rotation amounts. -/
def md5S : List Nat :=
  [7, 12, 17, 22, 7, 12, 17, 22, 7, 12, 17, 22, 7, 12, 17, 22,
   5, 9, 14, 20, 5, 9, 14, 20, 5, 9, 14, 20, 5, 9, 14, 20,
   4, 11, 16, 23, 4, 11, 16, 23, 4, 11, 16, 23, 4, 11, 16, 23,
   6, 10, 15, 21, 6, 10, 15, 21, 6, 10, 15, 21, 6, 10, 15, 21]

/-- 2^32, the modulus of 32-bit arithmetic. -/
def m32 : Nat := 4294967296

/-- Left rotation of a 32-bit word. -/
def rotl32 (x s : Nat) : Nat := x % 2 ^ (32 - s) * 2 ^ s + x / 2 ^ (32 - s)

/-- MD5 mixing function for rounds 0-15. -/
def md5F (b c d : Nat) : Nat := b &&& c ||| (4294967295 - b) &&& d

/-- MD5 mixing function for rounds 16-31. -/
def md5G (b c d : Nat) : Nat := d &&& b ||| (4294967295 - d) &&& c

/-- MD5 mixing function for rounds 32-47. -/
def md5H (b c d : Nat) : Nat := b ^^^ c ^^^ d

/-- MD5 mixing function for rounds 48-63. -/
def md5I (b c d : Nat) : Nat := c ^^^ (b ||| (4294967295 - d))

/-- MD5 message padding: a 0x80 byte, zeros up to 56 mod 64, then the
bit length as a 64-bit little-endian quantity. -/
def md5Pad (msg : List Nat) : List Nat :=
  let len := msg.length
  let zeros := (120 - (len + 1) % 64) % 64
  let bits := 8 * len % 2 ^ 64
  msg ++ [128] ++ List.replicate zeros 0 ++
    [bits % 256, bits / 2 ^ 8 % 256, bits / 2 ^ 16 % 256, bits / 2 ^ 24 % 256,
     bits / 2 ^ 32 % 256, bits / 2 ^ 40 % 256, bits / 2 ^ 48 % 256,
     bits / 2 ^ 56 % 256]

/-- The j-th little-endian 32-bit word of a 64-byte block. -/
def wordAt (block : List Nat) (j : Nat) : Nat :=
  block.getD (4 * j) 0 + 256 * block.getD (4 * j + 1) 0 +
    65536 * block.getD (4 * j + 2) 0 + 16777216 * block.getD (4 * j + 3) 0

/-- One MD5 round (round index `i` from 0 to 63). -/
def md5Round (block : List Nat) (st : Nat × Nat × Nat × Nat) (i : Nat) :
    Nat × Nat × Nat × Nat :=
  let (a, b, c, d) := st
  let f :=
    if i < 16 then md5F b c d
    else if i < 32 then md5G b c d
    else if i < 48 then md5H b c d
    else md5I b c d
  let g :=
    if i < 16 then i
    else if i < 32 then (5 * i + 1) % 16
    else if i < 48 then (3 * i + 5) % 16
    else 7 * i % 16
  let x := (a + f + md5K.getD i 0 + wordAt block g) % m32
  (d, (b + rotl32 x (md5S.getD i 0)) % m32, b, c)

/-- Process one 64-byte block of the padded message. -/
def md5Block (st : Nat × Nat × Nat × Nat) (block : List Nat) :
    Nat × Nat × Nat × Nat :=
  let r := (List.range 64).foldl (md5Round block) st
  ((st.1 + r.1) % m32, (st.2.1 + r.2.1) % m32, (st.2.2.1 + r.2.2.1) % m32,
   (st.2.2.2 + r.2.2.2) % m32)

/-- Process a padded message block by block. -/
def md5Blocks (st : Nat × Nat × Nat × Nat) (bs : List Nat) :
    Nat × Nat × Nat × Nat :=
  if h : bs.isEmpty then st
  else md5Blocks (md5Block st (bs.take 64)) (bs.drop 64)
termination_by bs.length
decreasing_by
  simp only [List.length_drop]
  have : bs ≠ [] := by simpa [List.isEmpty_iff] using h
  have : 0 < bs.length := List.length_pos.mpr this
  omega

/-- The 4 little-endian bytes of a 32-bit word. -/
def u32le (x : Nat) : List Nat := [x % 256, x / 256 % 256, x / 65536 % 256, x / 16777216 % 256]

/-- The 16-byte MD5 digest of a byte sequence, as Go's `md5.Sum`. -/
def md5Bytes (msg : List Nat) : List Nat :=
  let st := md5Blocks (1732584193, 4023233417, 2562383102, 271733878) (md5Pad msg)
  u32le st.1 ++ u32le st.2.1 ++ u32le st.2.2.1 ++ u32le st.2.2.2

/-- Lowercase hexadecimal digit for a value below 16. -/
def hexDigit (n : Nat) : Char := if n < 10 then Char.ofNat (48 + n) else Char.ofNat (87 + n)

/-- Lowercase hexadecimal rendering of a byte sequence, as Go's
`fmt.Sprintf` with the x verb on a byte array: two digits per byte. -/
def bytesToHex (bs : List Nat) : List Char :=
  bs.flatMap fun b => [hexDigit (b / 16 % 16), hexDigit (b % 16)]

/-- The 32-character lowercase hex MD5 digest of a string. -/
def md5Hex (s : List Char) : List Char := bytesToHex (md5Bytes (strBytes s))

/-- The length ceiling (`longest` in the source): 63. -/
def longest : Nat := 63

/-- The width of a hex-rendered md5 digest (`md5Len` in the source): 32. -/
def md5Len : Nat := 32

/-- How much of the parent survives next to the hash (`head` in the source): 31. -/
def head : Nat := longest - md5Len

/-- Whether a single character matches the source's anchored character-class
regular expression over lowercase letters, uppercase letters and digits. -/
def isAlphanumeric (c : Char) : Bool :=
  ('a' ≤ c && c ≤ 'z') || ('A' ≤ c && c ≤ 'Z') || ('0' ≤ c && c ≤ '9')

/-- `makeValidName` from the source: repeatedly remove the final character
while it is not alphanumeric.  The Go loop indexes `n[i]` with
`i = len(n)-1`; when the string runs out (or is empty to begin with) that
access is out of bounds and the program panics, modelled as `none`. -/
def makeValidName (n : List Char) : Option (List Char) :=
  if h : n = [] then none
  else if isAlphanumeric (n.getLast h) then some n
  else makeValidName n.dropLast
termination_by n.length
decreasing_by
  have hp : 0 < n.length := List.length_pos.mpr h
  simp only [List.length_dropLast]
  omega

/-- `Name` from the source.  Branch conditions use `Int` because Go computes
them in `int` arithmetic, where `longest - len(suffix)` can be negative.
Go slice expressions whose bound is not guarded in the source
(`parent[:head-len(suffix)]` and `suffix[:d]`) are modelled with an explicit
range check that returns `none` (panic) when violated. -/
def Name (parent suffix : List Char) : Option (List Char) :=
  if (parent.length : Int) > (longest : Int) - (suffix.length : Int) then
    if (head : Int) - (suffix.length : Int) ≤ 0 then
      let h := md5Hex (parent ++ suffix)
      let parent1 := if head < parent.length then parent.take head else parent
      let ret := parent1 ++ h
      if 0 < longest - ret.length then
        if longest - ret.length ≤ suffix.length then
          makeValidName (ret ++ suffix.take (longest - ret.length))
        else none
      else makeValidName ret
    else
      if head - suffix.length ≤ parent.length then
        some (parent.take (head - suffix.length) ++ md5Hex parent ++ suffix)
      else none
  else some (parent ++ suffix)

/-- `sanitize` from the source: drop all literal dots, then turn every
space into a dash. -/
def sanitize (s : List Char) : List Char :=
  (s.filter fun c => c != '.').map fun c => if c == ' ' then '-' else c

/-- `truncate` from the source: `Name` applied with an empty suffix. -/
def truncate (s : List Char) : Option (List Char) := Name s []

/-- Observer: the string is non-empty and its final character is
alphanumeric. -/
def endsAlnum (l : List Char) : Bool :=
  match l.getLast? with
  | some c => isAlphanumeric c
  | none => false

/-- The sixteen lowercase hexadecimal digit characters. -/
def hexChars : List Char := "0123456789abcdef".data

/-- The metadata fields of a CI release build configuration that the tool
reads (org, repo, branch). -/
structure Metadata where
  org : List Char
  repo : List Char
  branch : List Char
deriving DecidableEq

/-- One image build step; the tool only reads its destination name `To`. -/
structure ProjectDirectoryImageBuildStepConfiguration where
  To : List Char
deriving DecidableEq

/-- The parts of a CI release build configuration the tool reads. -/
structure ReleaseBuildConfiguration where
  metadata : Metadata
  images : List ProjectDirectoryImageBuildStepConfiguration
deriving DecidableEq

/-- `Config` from the source: a parsed configuration plus its path. -/
structure Config where
  releaseBuildConfiguration : ReleaseBuildConfiguration
  path : List Char
deriving DecidableEq

/-- `DockerfileApplicationConfig` from the source. -/
structure DockerfileApplicationConfig where
  applicationName : List Char
  releaseBuildConfiguration : ReleaseBuildConfiguration
  path : List Char
  projectDirectoryImageBuildStepConfiguration : ProjectDirectoryImageBuildStepConfiguration
deriving DecidableEq

/-- `dockerfileComponentKey` from the source: org-repo-branch-destination. -/
def dockerfileComponentKey (cfg : ReleaseBuildConfiguration)
    (ib : ProjectDirectoryImageBuildStepConfiguration) : List Char :=
  cfg.metadata.org ++ ['-'] ++ cfg.metadata.repo ++ ['-'] ++
    cfg.metadata.branch ++ ['-'] ++ ib.To

/-- `applicationKey` from the source: org-repo-branch. -/
def applicationKey (cfg : ReleaseBuildConfiguration) : List Char :=
  cfg.metadata.org ++ ['-'] ++ cfg.metadata.repo ++ ['-'] ++ cfg.metadata.branch

/-- Whether a Go map, modelled as an association list with pairwise distinct
keys, has an entry under the key. -/
def containsKey {α β : Type} [BEq α] (m : List (α × β)) (k : α) : Bool :=
  m.any fun kv => kv.1 == k

/-- Go map read: the value stored under the key, if any. -/
def mapGet {α β : Type} [BEq α] (m : List (α × β)) (k : α) : Option β :=
  (m.find? fun kv => kv.1 == k).map fun kv => kv.2

/-- Go map write: replace the stored value if the key is present, otherwise
append a fresh entry. -/
def mapInsert {α β : Type} [BEq α] (m : List (α × β)) (k : α) (v : β) :
    List (α × β) :=
  if containsKey m k then m.map fun kv => if kv.1 == k then (kv.1, v) else kv
  else m ++ [(k, v)]

/-- The inner map of the grouping structure: component key to record. -/
abbrev ComponentMap := List (List Char × DockerfileApplicationConfig)

/-- The `applications` map of the source: application key to component map. -/
abbrev GroupingMap := List (List Char × ComponentMap)

/-- The Go statement `applications[appKey][k] = v`: it updates the inner map
stored under `appKey`, and panics (modelled as `none`) when `appKey` is
absent, because assigning into the nil inner map is a runtime error. -/
def setComponent (m : GroupingMap) (appKey compKey : List Char)
    (v : DockerfileApplicationConfig) : Option GroupingMap :=
  if containsKey m appKey then
    some (m.map fun kv =>
      if kv.1 == appKey then (kv.1, mapInsert kv.2 compKey v) else kv)
  else none

/-- The struct literal stored by the grouping loop of `run`. -/
def componentRecord (applicationName : List Char) (c : Config)
    (ib : ProjectDirectoryImageBuildStepConfiguration) :
    DockerfileApplicationConfig :=
  { applicationName := applicationName
    releaseBuildConfiguration := c.releaseBuildConfiguration
    path := c.path
    projectDirectoryImageBuildStepConfiguration := ib }

/-- One iteration of the grouping loop of `run` (lines 103-128): derive the
application key, materialise its entry if missing, then walk the build steps
skipping the ones whose destination matches an exclude-image pattern.
Patterns appear as their match predicates. -/
def runGroupingStep (applicationName : List Char)
    (excludeImages : List (List Char → Bool)) (applications : GroupingMap)
    (c : Config) : Option GroupingMap := do
  let appKey ← truncate (sanitize applicationName)
  let applications :=
    if containsKey applications appKey then applications
    else mapInsert applications appKey []
  c.releaseBuildConfiguration.images.foldlM (fun apps ib =>
    if excludeImages.any (fun r => r ib.To) then some apps
    else setComponent apps appKey
      (dockerfileComponentKey c.releaseBuildConfiguration ib)
      (componentRecord applicationName c ib)) applications

/-- The whole grouping loop of `run` over the collected configurations. -/
def runGrouping (applicationName : List Char)
    (excludeImages : List (List Char → Bool)) (configs : List Config) :
    Option GroupingMap :=
  configs.foldlM (runGroupingStep applicationName excludeImages) []

/-- Observer: the (key, record) pairs one configuration contributes, in
build-step order, with excluded steps dropped. -/
def configRecords (applicationName : List Char)
    (excludeImages : List (List Char → Bool)) (c : Config) :
    List (List Char × DockerfileApplicationConfig) :=
  (c.releaseBuildConfiguration.images.filter
      (fun ib => !excludeImages.any (fun r => r ib.To))).map
    (fun ib => (dockerfileComponentKey c.releaseBuildConfiguration ib,
      componentRecord applicationName c ib))

/-- Observer: all (key, record) pairs in processing order. -/
def allRecords (applicationName : List Char)
    (excludeImages : List (List Char → Bool)) (configs : List Config) :
    List (List Char × DockerfileApplicationConfig) :=
  configs.flatMap (configRecords applicationName excludeImages)

/-- Replay a stream of (key, value) writes into an empty Go map. -/
def buildMap {α β : Type} [BEq α] (l : List (α × β)) : List (α × β) :=
  l.foldl (fun m kv => mapInsert m kv.1 kv.2) []

/-- The include/exclude decision of `collectConfigurations` (lines 178-188):
starts false; every include match sets it true; after each include test the
whole exclude list is scanned and any match resets it to false. -/
def shouldIncludeLoop (includes excludes : List (List Char → Bool))
    (path : List Char) : Bool :=
  includes.foldl (fun shouldInclude i =>
    excludes.foldl (fun s x => if x path then false else s)
      (if i path then true else shouldInclude)) false

/-- One filesystem object seen by the directory walk, together with the
outcome the external world assigns to it: its path, the path made relative
to the root that patterns are matched against, whether it is a directory,
and what `parseConfig` would yield for it (reading, YAML-to-JSON conversion
and unmarshalling are external effects, so their verdict is part of the
input). -/
structure WalkEntry where
  path : List Char
  matchablePath : List Char
  isDir : Bool
  parse : Except (List Char) ReleaseBuildConfiguration

/-- The error produced inside the walk callback when a matched file fails to
parse: it wraps the offending path and the underlying cause. -/
inductive CallbackError where
  | parseFailed (path : List Char) (cause : List Char)
deriving DecidableEq

/-- The error `collectConfigurations` returns: the callback error wrapped
with the root being walked. -/
inductive CollectError where
  | walkFailed (root : List Char) (err : CallbackError)
deriving DecidableEq

/-- The walk callback of `collectConfigurations`: skip directories, skip
paths the filter rejects, parse the rest; a parse failure aborts the walk
with a wrapped error, otherwise the configuration is appended. -/
def collectCallback (includes excludes : List (List Char → Bool))
    (configs : List Config) (e : WalkEntry) : Except CallbackError (List Config) :=
  if e.isDir then .ok configs
  else if shouldIncludeLoop includes excludes e.matchablePath = false then .ok configs
  else match e.parse with
    | .error cause => .error (.parseFailed e.path cause)
    | .ok config => .ok (configs ++ [{ releaseBuildConfiguration := config, path := e.path }])

/-- `collectConfigurations`: fold the callback over the walked entries in
order (the walk stops at the first callback error, as `filepath.WalkDir`
does) and wrap any error with the root. -/
def collectConfigurations (root : List Char)
    (includes excludes : List (List Char → Bool)) (entries : List WalkEntry) :
    Except CollectError (List Config) :=
  match entries.foldlM (collectCallback includes excludes) [] with
  | .error err => .error (.walkFailed root err)
  | .ok configs => .ok configs

theorem bytesToHex_nil : bytesToHex [] = [] := rfl

theorem bytesToHex_cons (b : Nat) (bs : List Nat) :
    bytesToHex (b :: bs) =
      hexDigit (b / 16 % 16) :: hexDigit (b % 16) :: bytesToHex bs := rfl

theorem length_bytesToHex (bs : List Nat) : (bytesToHex bs).length = 2 * bs.length := by
  induction bs with
  | nil => rfl
  | cons b bs ih =>
      rw [bytesToHex_cons]
      simp only [List.length_cons, ih]
      omega

theorem hexDigit_alnum : ∀ n < 16, isAlphanumeric (hexDigit n) = true := by decide

theorem hexDigit_mem_hexChars : ∀ n < 16, hexDigit n ∈ hexChars := by decide

theorem mem_bytesToHex (bs : List Nat) (c : Char) (hc : c ∈ bytesToHex bs) :
    ∃ n, n < 16 ∧ c = hexDigit n := by
  induction bs with
  | nil => simp [bytesToHex_nil] at hc
  | cons b bs ih =>
      rw [bytesToHex_cons] at hc
      simp only [List.mem_cons] at hc
      rcases hc with hc | hc | hc
      · exact ⟨b / 16 % 16, Nat.mod_lt _ (by norm_num), hc⟩
      · exact ⟨b % 16, Nat.mod_lt _ (by norm_num), hc⟩
      · exact ih hc

theorem length_md5Bytes (msg : List Nat) : (md5Bytes msg).length = 16 := by
  simp [md5Bytes, u32le]

theorem length_md5Hex (s : List Char) : (md5Hex s).length = 32 := by
  rw [md5Hex, length_bytesToHex, length_md5Bytes]

theorem md5Hex_ne_nil (s : List Char) : md5Hex s ≠ [] := by
  intro h
  have h32 := length_md5Hex s
  rw [h] at h32
  simp at h32

theorem md5Hex_alnum (s : List Char) (c : Char) (hc : c ∈ md5Hex s) :
    isAlphanumeric c = true := by
  obtain ⟨n, hn, rfl⟩ := mem_bytesToHex _ c hc
  exact hexDigit_alnum n hn

theorem md5Hex_mem_hexChars (s : List Char) (c : Char) (hc : c ∈ md5Hex s) :
    c ∈ hexChars := by
  obtain ⟨n, hn, rfl⟩ := mem_bytesToHex _ c hc
  exact hexDigit_mem_hexChars n hn

theorem endsAlnum_concat (l : List Char) (x : Char) :
    endsAlnum (l ++ [x]) = isAlphanumeric x := by
  rw [endsAlnum, List.getLast?_concat]

theorem makeValidName_concat_alnum (a : List Char) (c : Char)
    (h : isAlphanumeric c = true) : makeValidName (a ++ [c]) = some (a ++ [c]) := by
  rw [makeValidName, dif_neg (by simp : ¬(a ++ [c] = []))]
  simp [List.getLast_concat, h]

theorem makeValidName_concat_not (a : List Char) (c : Char)
    (h : isAlphanumeric c = false) : makeValidName (a ++ [c]) = makeValidName a := by
  rw [makeValidName, dif_neg (by simp : ¬(a ++ [c] = []))]
  simp [List.getLast_concat, h, List.dropLast_concat]

/-- Stripping behaviour of `makeValidName` on a string whose tail `b` sits
after a known alphanumeric character `c`: the loop removes a suffix of `b`
only, never touches `a ++ [c]`, and the survivor ends alphanumeric. -/
theorem makeValidName_spec (a : List Char) (c : Char) (hc : isAlphanumeric c = true)
    (b : List Char) :
    ∃ m, makeValidName (a ++ [c] ++ b) = some (a ++ [c] ++ m) ∧
      m.length ≤ b.length ∧ endsAlnum (a ++ [c] ++ m) = true := by
  induction b using List.reverseRecOn with
  | nil =>
      refine ⟨[], ?_, by simp, ?_⟩
      · simpa using makeValidName_concat_alnum a c hc
      · simpa using (endsAlnum_concat a c).trans hc
  | append_singleton b x ih =>
      cases hx : isAlphanumeric x
      · obtain ⟨m, h1, h2, h3⟩ := ih
        refine ⟨m, ?_, ?_, h3⟩
        · rw [← List.append_assoc, makeValidName_concat_not _ x hx]
          exact h1
        · simp only [List.length_append, List.length_cons]
          omega
      · refine ⟨b ++ [x], ?_, le_refl _, ?_⟩
        · rw [← List.append_assoc, makeValidName_concat_alnum _ x hx,
            List.append_assoc]
        · rw [← List.append_assoc, endsAlnum_concat]
          exact hx

/-- In the branch where the suffix is at least 31 characters long (and the
pair overflows the ceiling), `Name` reduces to `makeValidName` of: the first
31 characters of the parent, the hex digest of parent ++ suffix, and a
filling portion of the suffix. -/
theorem Name_hashAll_eq (p s : List Char) (h1 : 63 < p.length + s.length)
    (h2 : 31 ≤ s.length) :
    Name p s = makeValidName (p.take 31 ++ md5Hex (p ++ s) ++
      s.take (longest - (p.take 31 ++ md5Hex (p ++ s)).length)) := by
  have e1 : (p.length : Int) > (longest : Int) - (s.length : Int) := by
    simp only [longest]; omega
  have e2 : (head : Int) - (s.length : Int) ≤ 0 := by
    simp only [head, longest, md5Len]; omega
  have hparent1 : (if head < p.length then p.take head else p) = p.take 31 := by
    by_cases hp : head < p.length
    · rw [if_pos hp]; norm_num [head, longest, md5Len]
    · rw [if_neg hp, List.take_of_length_le]
      simp only [head, longest, md5Len] at hp
      omega
  have hA : (p.take 31 ++ md5Hex (p ++ s)).length = min 31 p.length + 32 := by
    simp [List.length_take, length_md5Hex]
  simp only [Name]
  rw [if_pos e1, if_pos e2, hparent1]
  by_cases hpad : 0 < longest - (p.take 31 ++ md5Hex (p ++ s)).length
  · rw [if_pos hpad, if_pos]
    rw [hA]
    simp only [longest]
    omega
  · rw [if_neg hpad]
    have h0 : longest - (p.take 31 ++ md5Hex (p ++ s)).length = 0 := by omega
    rw [h0]
    simp

/-- Full description of `Name` in the long-suffix branch: the result exists
(no panic), starts with the trimmed parent followed by the whole digest, is
at most 63 characters long and ends alphanumeric. -/
theorem Name_hashAll (p s : List Char) (h1 : 63 < p.length + s.length)
    (h2 : 31 ≤ s.length) :
    ∃ m, Name p s = some (p.take 31 ++ md5Hex (p ++ s) ++ m) ∧
      (p.take 31 ++ md5Hex (p ++ s) ++ m).length ≤ 63 ∧
      endsAlnum (p.take 31 ++ md5Hex (p ++ s) ++ m) = true := by
  have hne := md5Hex_ne_nil (p ++ s)
  have hcl : isAlphanumeric ((md5Hex (p ++ s)).getLast hne) = true :=
    md5Hex_alnum _ _ (List.getLast_mem hne)
  obtain ⟨m, hm, hml, hma⟩ :=
    makeValidName_spec (p.take 31 ++ (md5Hex (p ++ s)).dropLast)
      ((md5Hex (p ++ s)).getLast hne) hcl
      (s.take (longest - (p.take 31 ++ md5Hex (p ++ s)).length))
  have hid : p.take 31 ++ (md5Hex (p ++ s)).dropLast ++ [(md5Hex (p ++ s)).getLast hne]
      = p.take 31 ++ md5Hex (p ++ s) := by
    rw [List.append_assoc, List.dropLast_append_getLast hne]
  rw [hid] at hm hma
  refine ⟨m, ?_, ?_, hma⟩
  · rw [Name_hashAll_eq p s h1 h2, hm]
  · simp only [List.length_append, List.length_take, length_md5Hex, longest] at hml ⊢
    omega

/-- Claim C1: for every pair of strings (base, suffix), `Name` succeeds and
returns a string of length at most 63. -/
theorem name_length_bound (parent suffix : List Char) :
    ∃ r, Name parent suffix = some r ∧ r.length ≤ 63 := by
  by_cases hc1 : 63 < parent.length + suffix.length
  · by_cases hc2 : 31 ≤ suffix.length
    · obtain ⟨m, hm, hl, _⟩ := Name_hashAll parent suffix hc1 hc2
      exact ⟨_, hm, hl⟩
    · push_neg at hc2
      have e1 : (parent.length : Int) > (longest : Int) - (suffix.length : Int) := by
        simp only [longest]; omega
      have e2 : ¬((head : Int) - (suffix.length : Int) ≤ 0) := by
        simp only [head, longest, md5Len]; omega
      have e3 : head - suffix.length ≤ parent.length := by
        simp only [head, longest, md5Len]; omega
      refine ⟨parent.take (head - suffix.length) ++ md5Hex parent ++ suffix, ?_, ?_⟩
      · simp only [Name]
        rw [if_pos e1, if_neg e2, if_pos e3]
      · simp only [List.length_append, List.length_take, length_md5Hex, head,
          longest, md5Len]
        omega
  · push_neg at hc1
    have e1 : ¬((parent.length : Int) > (longest : Int) - (suffix.length : Int)) := by
      simp only [longest]; omega
    refine ⟨parent ++ suffix, ?_, ?_⟩
    · simp only [Name]; rw [if_neg e1]
    · simp only [List.length_append]; omega

/-- Claim C2: whenever the lengths of base and suffix sum to at most 63,
`Name` returns the plain concatenation unchanged. -/
theorem name_short (parent suffix : List Char)
    (h : parent.length + suffix.length ≤ 63) :
    Name parent suffix = some (parent ++ suffix) := by
  have e1 : ¬((parent.length : Int) > (longest : Int) - (suffix.length : Int)) := by
    simp only [longest]; omega
  simp only [Name]; rw [if_neg e1]

theorem name_short_witness :
    "konflux".data.length + "-app".data.length ≤ 63 ∧
      Name "konflux".data "-app".data = some ("konflux".data ++ "-app".data) :=
  ⟨by decide, name_short "konflux".data "-app".data (by decide)⟩

/-- Claim C3 counterexample: `Name` applied to base "a" and suffix "-" is a
short concatenation that ends in the non-alphanumeric character dash. -/
theorem name_endsAlnum_cex :
    Name "a".data "-".data = some "a-".data ∧ endsAlnum "a-".data = false := by
  decide

/-- Claim C3 (amended): only in the long-suffix hash branch (combined length
over 63 and suffix at least 31 characters) does `Name` strip the trailer, and
there its result always ends in an alphanumeric character; in the remaining
branches the result ends in whatever character the suffix (or concatenation)
ends in. -/
theorem name_endsAlnum_hashAll (parent suffix : List Char)
    (h1 : 63 < parent.length + suffix.length) (h2 : 31 ≤ suffix.length) :
    ∃ r, Name parent suffix = some r ∧ endsAlnum r = true := by
  obtain ⟨m, hm, _, ha⟩ := Name_hashAll parent suffix h1 h2
  exact ⟨_, hm, ha⟩

theorem name_endsAlnum_hashAll_witness :
    (63 < "".data.length + (List.replicate 64 '-').length ∧
      31 ≤ (List.replicate 64 '-').length) ∧
      ∃ r, Name "".data (List.replicate 64 '-') = some r ∧ endsAlnum r = true :=
  ⟨by decide, name_endsAlnum_hashAll "".data (List.replicate 64 '-')
    (by decide) (by decide)⟩

/-- Claim C7: in the branch where the combined length exceeds 63 and the
suffix is at least 63 - 32 = 31 characters long, `Name` hashes the full
concatenation, keeps at most 31 leading characters of the base, appends the
digest as 32 lowercase hex characters, fills any space left up to 63 with a
leading portion of the suffix, and finally strips the non-alphanumeric
trailer via `makeValidName`. -/
theorem name_hashAll_structure (base suffix : List Char)
    (h1 : 63 < base.length + suffix.length) (h2 : 63 - 32 ≤ suffix.length) :
    Name base suffix = makeValidName (base.take 31 ++ md5Hex (base ++ suffix) ++
        suffix.take (longest - (base.take 31 ++ md5Hex (base ++ suffix)).length)) ∧
      (md5Hex (base ++ suffix)).length = 32 ∧
      ∀ c ∈ md5Hex (base ++ suffix), c ∈ hexChars :=
  ⟨Name_hashAll_eq base suffix h1 (by omega), length_md5Hex _,
    fun c hc => md5Hex_mem_hexChars _ c hc⟩

theorem name_hashAll_structure_witness :
    (63 < (List.replicate 40 'x').length + (List.replicate 35 's').length ∧
      63 - 32 ≤ (List.replicate 35 's').length) ∧
      (Name (List.replicate 40 'x') (List.replicate 35 's') =
        makeValidName ((List.replicate 40 'x').take 31 ++
          md5Hex (List.replicate 40 'x' ++ List.replicate 35 's') ++
          (List.replicate 35 's').take (longest - ((List.replicate 40 'x').take 31 ++
            md5Hex (List.replicate 40 'x' ++ List.replicate 35 's')).length)) ∧
        (md5Hex (List.replicate 40 'x' ++ List.replicate 35 's')).length = 32 ∧
        ∀ c ∈ md5Hex (List.replicate 40 'x' ++ List.replicate 35 's'), c ∈ hexChars) :=
  ⟨by decide, name_hashAll_structure (List.replicate 40 'x') (List.replicate 35 's')
    (by decide) (by decide)⟩

/-- Claim C9: whenever `Name` reaches `makeValidName` (the long-suffix hash
branch), the argument contains the 32 alphanumeric hex digest characters, so
the strip loop stops inside (or before) the digest: the call returns without
panicking and the result retains the trimmed parent plus the full digest as
an initial segment. -/
theorem makeValidName_safe_from_name (parent suffix : List Char)
    (h1 : 63 < parent.length + suffix.length) (h2 : 31 ≤ suffix.length) :
    (∀ c ∈ md5Hex (parent ++ suffix), isAlphanumeric c = true) ∧
      ∃ r, Name parent suffix = some r ∧
        ∃ rest, r = parent.take 31 ++ md5Hex (parent ++ suffix) ++ rest := by
  obtain ⟨m, hm, _, _⟩ := Name_hashAll parent suffix h1 h2
  exact ⟨fun c hc => md5Hex_alnum _ c hc, _, hm, m, rfl⟩

theorem makeValidName_safe_from_name_witness :
    (63 < (List.replicate 20 'x' ++ "--".data).length + (List.replicate 64 '-').length ∧
      31 ≤ (List.replicate 64 '-').length) ∧
      ((∀ c ∈ md5Hex ((List.replicate 20 'x' ++ "--".data) ++ List.replicate 64 '-'),
          isAlphanumeric c = true) ∧
        ∃ r, Name (List.replicate 20 'x' ++ "--".data) (List.replicate 64 '-') = some r ∧
          ∃ rest, r = (List.replicate 20 'x' ++ "--".data).take 31 ++
            md5Hex ((List.replicate 20 'x' ++ "--".data) ++ List.replicate 64 '-') ++ rest) :=
  ⟨by decide, makeValidName_safe_from_name (List.replicate 20 'x' ++ "--".data)
    (List.replicate 64 '-') (by decide) (by decide)⟩

theorem excludeFold_eq (excludes : List (List Char → Bool)) (path : List Char)
    (s : Bool) :
    excludes.foldl (fun s x => if x path then false else s) s =
      if excludes.any (fun x => x path) then false else s := by
  induction excludes generalizing s with
  | nil => simp
  | cons x xs ih =>
      simp only [List.foldl_cons, List.any_cons]
      rw [ih]
      by_cases hx : x path
      · simp [hx]
      · simp [hx]

theorem includeFold_eq (includes excludes : List (List Char → Bool))
    (path : List Char) (acc : Bool) :
    includes.foldl (fun shouldInclude i =>
        excludes.foldl (fun s x => if x path then false else s)
          (if i path then true else shouldInclude)) acc =
      if includes.isEmpty then acc
      else if excludes.any (fun x => x path) then false
      else (acc || includes.any (fun i => i path)) := by
  induction includes generalizing acc with
  | nil => simp
  | cons i is ih =>
      simp only [List.foldl_cons]
      rw [excludeFold_eq, ih]
      cases hE : excludes.any (fun x => x path) <;>
        cases hip : i path <;>
          cases is <;> simp [hE, hip]

/-- Claim C4: the nested include/exclude loops decide exactly the closed
form: some include pattern matches and no exclude pattern matches, with
exclusion winning regardless of order. -/
theorem filter_closed_form (includes excludes : List (List Char → Bool))
    (path : List Char) (h : includes ≠ []) :
    shouldIncludeLoop includes excludes path =
      (includes.any (fun i => i path) && !excludes.any (fun x => x path)) := by
  rw [shouldIncludeLoop, includeFold_eq]
  cases hE : excludes.any (fun x => x path) <;> simp [h, hE]

theorem filter_closed_form_witness :
    ([fun p => p.take 2 == "a/".data] : List (List Char → Bool)) ≠ [] ∧
      (shouldIncludeLoop [fun p => p.take 2 == "a/".data]
          [fun p => p.take 4 == "a/b/".data] "a/b/c".data =
        (([fun p => p.take 2 == "a/".data].any (fun i => i "a/b/c".data)) &&
          !([fun p => p.take 4 == "a/b/".data].any (fun x => x "a/b/c".data)))) ∧
      shouldIncludeLoop [fun p => p.take 2 == "a/".data]
          [fun p => p.take 4 == "a/b/".data] "a/b/c".data = false ∧
      shouldIncludeLoop [fun p => p.take 2 == "a/".data]
          [fun p => p.take 4 == "a/b/".data] "a/x/c".data = true ∧
      shouldIncludeLoop [fun p => p.take 2 == "a/".data]
          [fun p => p.take 4 == "a/b/".data] "z/1".data = false :=
  ⟨by simp,
    filter_closed_form [fun p => p.take 2 == "a/".data]
      [fun p => p.take 4 == "a/b/".data] "a/b/c".data (by simp),
    by decide, by decide, by decide⟩

theorem containsKey_cons {α β : Type} [BEq α] (q : α × β) (m : List (α × β))
    (k : α) : containsKey (q :: m) k = (q.1 == k || containsKey m k) := by
  simp [containsKey]

theorem mapGet_cons {α β : Type} [BEq α] (q : α × β) (m : List (α × β)) (k : α) :
    mapGet (q :: m) k = if q.1 == k then some q.2 else mapGet m k := by
  by_cases h : q.1 == k
  · rw [mapGet, List.find?_cons_of_pos (p := fun kv : α × β => kv.1 == k) _ h,
      if_pos h]
    rfl
  · rw [mapGet,
      List.find?_cons_of_neg (p := fun kv : α × β => kv.1 == k) _ (by simpa using h),
      if_neg h]
    rfl

theorem mapGet_none {α β : Type} [BEq α] (m : List (α × β)) (k : α) :
    containsKey m k = false → mapGet m k = none := by
  induction m with
  | nil => intro _; rfl
  | cons q m ih =>
      intro h
      rw [containsKey_cons] at h
      rcases Bool.or_eq_false_iff.mp h with ⟨h1, h2⟩
      rw [mapGet_cons, if_neg (by simp [h1]), ih h2]

theorem mapGet_append {α β : Type} [BEq α] (m1 m2 : List (α × β)) (k : α) :
    mapGet (m1 ++ m2) k =
      if containsKey m1 k then mapGet m1 k else mapGet m2 k := by
  induction m1 with
  | nil => simp [containsKey, mapGet]
  | cons q m ih =>
      by_cases hq : q.1 == k
      · simp [mapGet_cons, containsKey_cons, hq]
      · simp [mapGet_cons, containsKey_cons, hq, ih]

theorem mapGet_replace_self {α β : Type} [BEq α] (m : List (α × β)) (k : α)
    (v : β) :
    containsKey m k = true →
      mapGet (m.map fun kv => if kv.1 == k then (kv.1, v) else kv) k = some v := by
  induction m with
  | nil => intro h; simp [containsKey] at h
  | cons q m ih =>
      intro h
      rw [List.map_cons]
      by_cases hq : q.1 == k
      · rw [if_pos hq, mapGet_cons, if_pos hq]
      · rw [if_neg hq, mapGet_cons, if_neg hq]
        rw [containsKey_cons] at h
        simp only [hq, Bool.false_or] at h
        exact ih h

theorem mapGet_replace_ne {α β : Type} [BEq α] [LawfulBEq α] (m : List (α × β))
    (k k' : α) (v : β) (hkk : (k == k') = false) :
    mapGet (m.map fun kv => if kv.1 == k then (kv.1, v) else kv) k' =
      mapGet m k' := by
  induction m with
  | nil => rfl
  | cons q m ih =>
      rw [List.map_cons]
      by_cases hq : q.1 == k
      · have hq1 : q.1 = k := eq_of_beq hq
        have hq' : (q.1 == k') = false := by rw [hq1]; exact hkk
        rw [if_pos hq, mapGet_cons, mapGet_cons]
        simp only [hq', ih]
        rfl
      · rw [if_neg hq, mapGet_cons, mapGet_cons, ih]

theorem containsKey_replace {α β : Type} [BEq α] (m : List (α × β)) (k k' : α)
    (v : β) :
    containsKey (m.map fun kv => if kv.1 == k then (kv.1, v) else kv) k' =
      containsKey m k' := by
  induction m with
  | nil => rfl
  | cons q m ih =>
      rw [List.map_cons]
      by_cases hq : q.1 == k
      · rw [if_pos hq, containsKey_cons, containsKey_cons, ih]
      · rw [if_neg hq, containsKey_cons, containsKey_cons, ih]

theorem containsKey_append {α β : Type} [BEq α] (m1 m2 : List (α × β)) (k : α) :
    containsKey (m1 ++ m2) k = (containsKey m1 k || containsKey m2 k) := by
  simp [containsKey, List.any_append]

theorem mapGet_mapInsert_self {α β : Type} [BEq α] [LawfulBEq α]
    (m : List (α × β)) (k : α) (v : β) :
    mapGet (mapInsert m k v) k = some v := by
  rw [mapInsert]
  by_cases hc : containsKey m k
  · rw [if_pos hc]
    exact mapGet_replace_self m k v hc
  · rw [if_neg hc, mapGet_append, if_neg hc, mapGet_cons, if_pos (beq_self_eq_true k)]

theorem mapGet_mapInsert_ne {α β : Type} [BEq α] [LawfulBEq α]
    (m : List (α × β)) (k k' : α) (v : β) (hkk : (k == k') = false) :
    mapGet (mapInsert m k v) k' = mapGet m k' := by
  rw [mapInsert]
  by_cases hc : containsKey m k
  · rw [if_pos hc]
    exact mapGet_replace_ne m k k' v hkk
  · rw [if_neg hc, mapGet_append]
    by_cases hc' : containsKey m k'
    · rw [if_pos hc']
    · rw [if_neg hc', mapGet_cons, if_neg (by simp [hkk]), mapGet_none m k' (by simpa using hc')]
      rfl

theorem containsKey_mapInsert {α β : Type} [BEq α] [LawfulBEq α]
    (m : List (α × β)) (k k' : α) (v : β) :
    containsKey (mapInsert m k v) k' = (containsKey m k' || k == k') := by
  rw [mapInsert]
  by_cases hc : containsKey m k
  · rw [if_pos hc, containsKey_replace]
    by_cases hkk : (k == k') = true
    · have : k = k' := eq_of_beq hkk
      subst this
      simp [hc]
    · simp [Bool.eq_false_iff.mpr hkk]
  · rw [if_neg hc, containsKey_append, containsKey_cons]
    simp [containsKey]

theorem keys_mapInsert {α β : Type} [BEq α] (m : List (α × β)) (k : α) (v : β) :
    (mapInsert m k v).map Prod.fst =
      if containsKey m k then m.map Prod.fst else m.map Prod.fst ++ [k] := by
  rw [mapInsert]
  by_cases hc : containsKey m k
  · rw [if_pos hc, if_pos hc, List.map_map]
    apply List.map_congr_left
    intro kv _
    by_cases hq : kv.1 == k <;> simp [hq]
  · rw [if_neg hc, if_neg hc, List.map_append]
    rfl

theorem not_mem_keys {α β : Type} [BEq α] [LawfulBEq α] (m : List (α × β))
    (k : α) (h : containsKey m k = false) : k ∉ m.map Prod.fst := by
  intro hk
  obtain ⟨q, hqm, hfst⟩ := List.mem_map.mp hk
  have : containsKey m k = true := by
    rw [containsKey, List.any_eq_true]
    exact ⟨q, hqm, by rw [hfst]; exact beq_self_eq_true k⟩
  rw [h] at this
  exact Bool.false_ne_true this

theorem nodupKeys_mapInsert {α β : Type} [BEq α] [LawfulBEq α]
    (m : List (α × β)) (k : α) (v : β)
    (hnd : (m.map Prod.fst).Nodup) :
    ((mapInsert m k v).map Prod.fst).Nodup := by
  rw [keys_mapInsert]
  by_cases hc : containsKey m k
  · rw [if_pos hc]; exact hnd
  · rw [if_neg hc]
    rw [List.nodup_append]
    exact ⟨hnd, List.nodup_singleton k,
      by simpa [List.disjoint_singleton] using not_mem_keys m k (by simpa using hc)⟩

theorem countP_keys {α β : Type} [BEq α] [LawfulBEq α] (m : List (α × β)) (k : α) :
    (m.map Prod.fst).Nodup → containsKey m k = true →
      m.countP (fun q => q.1 == k) = 1 := by
  induction m with
  | nil => intro _ h; simp [containsKey] at h
  | cons q m ih =>
      intro hnd hck
      rw [List.countP_cons]
      simp only [List.map_cons, List.nodup_cons] at hnd
      by_cases hq : q.1 == k
      · have hk : k ∉ m.map Prod.fst := eq_of_beq hq ▸ hnd.1
        have h0 : m.countP (fun q => q.1 == k) = 0 := by
          rw [List.countP_eq_zero]
          intro a ha h'
          exact hk (List.mem_map.mpr ⟨a, ha, eq_of_beq (by simpa using h')⟩)
        simp [hq, h0]
      · rw [containsKey_cons] at hck
        simp only [hq, Bool.false_or] at hck
        simp [hq, ih hnd.2 hck]

theorem mem_mapInsert {α β : Type} [BEq α] (m : List (α × β)) (k : α) (v : β)
    (q : α × β) (hq : q ∈ mapInsert m k v) : q ∈ m ∨ q.2 = v := by
  rw [mapInsert] at hq
  by_cases hc : containsKey m k
  · rw [if_pos hc] at hq
    obtain ⟨kv, hkv, heq⟩ := List.mem_map.mp hq
    by_cases h : kv.1 == k
    · right
      rw [if_pos h] at heq
      rw [← heq]
    · left
      rw [if_neg h] at heq
      rw [← heq]
      exact hkv
  · rw [if_neg hc] at hq
    rcases List.mem_append.mp hq with h | h
    · exact Or.inl h
    · right
      rw [List.mem_singleton.mp h]

theorem buildMap_concat {α β : Type} [BEq α] (l : List (α × β)) (q : α × β) :
    buildMap (l ++ [q]) = mapInsert (buildMap l) q.1 q.2 := by
  rw [buildMap, buildMap, List.foldl_append]
  rfl

theorem nodupKeys_buildMap {α β : Type} [BEq α] [LawfulBEq α] (l : List (α × β)) :
    ((buildMap l).map Prod.fst).Nodup := by
  induction l using List.reverseRecOn with
  | nil => simp [buildMap]
  | append_singleton l q ih =>
      rw [buildMap_concat]
      exact nodupKeys_mapInsert _ _ _ ih

theorem containsKey_buildMap {α β : Type} [BEq α] [LawfulBEq α]
    (l : List (α × β)) (k : α) :
    containsKey (buildMap l) k = l.any (fun q => q.1 == k) := by
  induction l using List.reverseRecOn with
  | nil => rfl
  | append_singleton l q ih =>
      rw [buildMap_concat, containsKey_mapInsert, ih, List.any_append]
      simp

theorem mapGet_buildMap {α β : Type} [BEq α] [LawfulBEq α]
    (l : List (α × β)) (k : α) :
    mapGet (buildMap l) k =
      ((l.filter (fun q => q.1 == k)).getLast?).map Prod.snd := by
  induction l using List.reverseRecOn with
  | nil => rfl
  | append_singleton l q ih =>
      rw [buildMap_concat, List.filter_append]
      by_cases hq : q.1 == k
      · have hk : q.1 = k := eq_of_beq hq
        rw [← hk, mapGet_mapInsert_self]
        simp [hq, List.getLast?_concat]
      · rw [mapGet_mapInsert_ne _ _ _ _ (by simp_all [BEq.comm]), ih]
        simp [hq]

theorem mem_buildMap {α β : Type} [BEq α] (l : List (α × β)) (q : α × β)
    (hq : q ∈ buildMap l) : ∃ kv ∈ l, q.2 = kv.2 := by
  induction l using List.reverseRecOn with
  | nil => simp [buildMap] at hq
  | append_singleton l r ih =>
      rw [buildMap_concat] at hq
      rcases mem_mapInsert _ _ _ _ hq with h | h
      · obtain ⟨kv, hkv, he⟩ := ih h
        exact ⟨kv, List.mem_append_left _ hkv, he⟩
      · exact ⟨r, List.mem_append_right _ (List.mem_singleton_self r), h⟩

theorem truncate_isSome (s : List Char) : ∃ ak, truncate s = some ak := by
  rw [truncate]
  by_cases hc : 63 < s.length
  · have e1 : (s.length : Int) > (longest : Int) - (([] : List Char).length : Int) := by
      simp only [longest, List.length_nil]; omega
    have e2 : ¬((head : Int) - (([] : List Char).length : Int) ≤ 0) := by
      simp only [head, longest, md5Len, List.length_nil]; omega
    have e3 : head - ([] : List Char).length ≤ s.length := by
      simp only [head, longest, md5Len, List.length_nil]; omega
    refine ⟨s.take (head - ([] : List Char).length) ++ md5Hex s ++ [], ?_⟩
    simp only [Name]
    rw [if_pos e1, if_neg e2, if_pos e3]
  · have e1 : ¬((s.length : Int) > (longest : Int) - (([] : List Char).length : Int)) := by
      simp only [longest, List.length_nil]; omega
    refine ⟨s ++ [], ?_⟩
    simp only [Name]
    rw [if_neg e1]

theorem setComponent_self (ak compKey : List Char) (inner : ComponentMap)
    (v : DockerfileApplicationConfig) :
    setComponent [(ak, inner)] ak compKey v =
      some [(ak, mapInsert inner compKey v)] := by
  simp [setComponent, containsKey]

theorem imagesFold_records (an : List Char) (ex : List (List Char → Bool))
    (c : Config) (images : List ProjectDirectoryImageBuildStepConfiguration)
    (inner : ComponentMap) :
    images.foldl (fun m ib =>
        if ex.any (fun r => r ib.To) then m
        else mapInsert m (dockerfileComponentKey c.releaseBuildConfiguration ib)
          (componentRecord an c ib)) inner =
      ((images.filter (fun ib => !ex.any (fun r => r ib.To))).map
        (fun ib => (dockerfileComponentKey c.releaseBuildConfiguration ib,
          componentRecord an c ib))).foldl
        (fun m kv => mapInsert m kv.1 kv.2) inner := by
  induction images generalizing inner with
  | nil => rfl
  | cons ib ibs ih =>
      by_cases hib : ex.any (fun r => r ib.To)
      · simp only [List.foldl_cons, List.filter_cons, hib, if_true, Bool.not_true,
          Bool.false_eq_true, if_false]
        exact ih inner
      · simp only [List.foldl_cons, List.filter_cons, Bool.not_eq_true] at hib ⊢
        simp only [hib, Bool.false_eq_true, if_false, Bool.not_false, if_true,
          List.map_cons, List.foldl_cons]
        exact ih _

theorem imagesFoldM_eq (an : List Char) (ex : List (List Char → Bool))
    (ak : List Char) (c : Config)
    (images : List ProjectDirectoryImageBuildStepConfiguration)
    (inner : ComponentMap) :
    images.foldlM (fun apps ib =>
        if ex.any (fun r => r ib.To) then some apps
        else setComponent apps ak
          (dockerfileComponentKey c.releaseBuildConfiguration ib)
          (componentRecord an c ib)) [(ak, inner)] =
      some [(ak, images.foldl (fun m ib =>
        if ex.any (fun r => r ib.To) then m
        else mapInsert m (dockerfileComponentKey c.releaseBuildConfiguration ib)
          (componentRecord an c ib)) inner)] := by
  induction images generalizing inner with
  | nil => rfl
  | cons ib ibs ih =>
      by_cases hib : ex.any (fun r => r ib.To)
      · simp only [List.foldlM_cons, List.foldl_cons, hib, if_true]
        simpa using ih inner
      · simp only [List.foldlM_cons, List.foldl_cons, hib, if_false]
        rw [setComponent_self]
        simpa using ih _

theorem runGroupingStep_cons_eq (an : List Char) (ex : List (List Char → Bool))
    (ak : List Char) (hak : truncate (sanitize an) = some ak)
    (inner : ComponentMap) (c : Config) :
    runGroupingStep an ex [(ak, inner)] c =
      some [(ak, (configRecords an ex c).foldl
        (fun m kv => mapInsert m kv.1 kv.2) inner)] := by
  have hck : containsKey [(ak, inner)] ak = true := by simp [containsKey]
  simp only [runGroupingStep, hak, Option.bind_eq_bind, Option.some_bind, hck,
    if_true]
  rw [imagesFoldM_eq, imagesFold_records]
  rfl

theorem runGroupingStep_nil_eq (an : List Char) (ex : List (List Char → Bool))
    (ak : List Char) (hak : truncate (sanitize an) = some ak) (c : Config) :
    runGroupingStep an ex [] c =
      some [(ak, (configRecords an ex c).foldl
        (fun m kv => mapInsert m kv.1 kv.2) [])] := by
  have hck : containsKey ([] : GroupingMap) ak = false := rfl
  have hmi : mapInsert ([] : GroupingMap) ak [] = [(ak, [])] := by
    simp [mapInsert, containsKey]
  simp only [runGroupingStep, hak, Option.bind_eq_bind, Option.some_bind, hck,
    Bool.false_eq_true, if_false, hmi]
  rw [imagesFoldM_eq, imagesFold_records]
  rfl

theorem runGrouping_go (an : List Char) (ex : List (List Char → Bool))
    (ak : List Char) (hak : truncate (sanitize an) = some ak)
    (configs : List Config) (inner : ComponentMap) :
    configs.foldlM (runGroupingStep an ex) [(ak, inner)] =
      some [(ak, (allRecords an ex configs).foldl
        (fun m kv => mapInsert m kv.1 kv.2) inner)] := by
  induction configs generalizing inner with
  | nil => simp [allRecords]
  | cons c cs ih =>
      rw [List.foldlM_cons, runGroupingStep_cons_eq an ex ak hak inner c]
      simp only [Option.bind_eq_bind, Option.some_bind]
      rw [ih]
      simp [allRecords, List.foldl_append]

/-- The grouping loop over a non-empty configuration list produces exactly
one application entry, whose component map replays all surviving
(key, record) writes, in processing order, into an empty map. -/
theorem runGrouping_eq (an : List Char) (ex : List (List Char → Bool))
    (ak : List Char) (hak : truncate (sanitize an) = some ak)
    (configs : List Config) (hne : configs ≠ []) :
    runGrouping an ex configs =
      some [(ak, buildMap (allRecords an ex configs))] := by
  cases configs with
  | nil => exact absurd rfl hne
  | cons c cs =>
      rw [runGrouping, List.foldlM_cons, runGroupingStep_nil_eq an ex ak hak c]
      simp only [Option.bind_eq_bind, Option.some_bind]
      rw [runGrouping_go an ex ak hak cs]
      simp [allRecords, buildMap, List.foldl_append]

theorem mem_allRecords_intro (an : List Char) (ex : List (List Char → Bool))
    (configs : List Config) (c : Config)
    (ib : ProjectDirectoryImageBuildStepConfiguration)
    (hc : c ∈ configs) (hib : ib ∈ c.releaseBuildConfiguration.images)
    (hex : ex.any (fun r => r ib.To) = false) :
    (dockerfileComponentKey c.releaseBuildConfiguration ib,
      componentRecord an c ib) ∈ allRecords an ex configs := by
  rw [allRecords, List.mem_flatMap]
  refine ⟨c, hc, ?_⟩
  rw [configRecords, List.mem_map]
  exact ⟨ib, List.mem_filter.mpr ⟨hib, by simp [hex]⟩, rfl⟩

theorem mem_allRecords_elim (an : List Char) (ex : List (List Char → Bool))
    (configs : List Config) (kv : List Char × DockerfileApplicationConfig)
    (hkv : kv ∈ allRecords an ex configs) :
    ∃ c ∈ configs, ∃ ib ∈ c.releaseBuildConfiguration.images,
      ex.any (fun r => r ib.To) = false ∧
      kv = (dockerfileComponentKey c.releaseBuildConfiguration ib,
        componentRecord an c ib) := by
  rw [allRecords, List.mem_flatMap] at hkv
  obtain ⟨c, hc, hkv⟩ := hkv
  rw [configRecords, List.mem_map] at hkv
  obtain ⟨ib, hib, rfl⟩ := hkv
  have hf := List.mem_filter.mp hib
  exact ⟨c, hc, ib, hf.1, by simpa using hf.2, rfl⟩

/-- Claim C5: when two (or more) processed documents carry the same
(org, repo, branch, destination), the grouping map holds exactly one entry
under that component key, and its value is the record of the write performed
last in processing order (the `getLast?` of the surviving writes with that
key); the run still succeeds, with no error for the duplicate. -/
theorem grouping_overwrite (an : List Char) (ex : List (List Char → Bool))
    (l1 l2 l3 : List Config) (c1 c2 : Config)
    (ib1 ib2 : ProjectDirectoryImageBuildStepConfiguration)
    (h1 : ib1 ∈ c1.releaseBuildConfiguration.images)
    (h2 : ib2 ∈ c2.releaseBuildConfiguration.images)
    (e1 : ex.any (fun r => r ib1.To) = false)
    (e2 : ex.any (fun r => r ib2.To) = false)
    (hmeta : c1.releaseBuildConfiguration.metadata =
      c2.releaseBuildConfiguration.metadata)
    (hto : ib1.To = ib2.To) :
    ∃ ak inner, truncate (sanitize an) = some ak ∧
      runGrouping an ex (l1 ++ c1 :: l2 ++ c2 :: l3) = some [(ak, inner)] ∧
      inner.countP
        (fun q => q.1 == dockerfileComponentKey c2.releaseBuildConfiguration ib2) = 1 ∧
      mapGet inner (dockerfileComponentKey c2.releaseBuildConfiguration ib2) =
        (((allRecords an ex (l1 ++ c1 :: l2 ++ c2 :: l3)).filter
          (fun q => q.1 ==
            dockerfileComponentKey c2.releaseBuildConfiguration ib2)).getLast?).map
          Prod.snd := by
  obtain ⟨ak, hak⟩ := truncate_isSome (sanitize an)
  have hne : (l1 ++ c1 :: l2 ++ c2 :: l3) ≠ [] := by simp
  refine ⟨ak, buildMap (allRecords an ex (l1 ++ c1 :: l2 ++ c2 :: l3)), hak,
    runGrouping_eq an ex ak hak _ hne, ?_, mapGet_buildMap _ _⟩
  apply countP_keys _ _ (nodupKeys_buildMap _)
  rw [containsKey_buildMap, List.any_eq_true]
  refine ⟨(dockerfileComponentKey c2.releaseBuildConfiguration ib2,
    componentRecord an c2 ib2), ?_, by simp⟩
  exact mem_allRecords_intro an ex _ c2 ib2 (by simp) h2 e2

/-- Claim C6: a build step whose destination matches an exclude-image
pattern never contributes a record to the grouping map, while a step
matching no exclude pattern always does (there is no include set for
images). -/
theorem image_exclusion (an : List Char) (ex : List (List Char → Bool))
    (configs : List Config) (c : Config)
    (ib : ProjectDirectoryImageBuildStepConfiguration)
    (hc : c ∈ configs) (hib : ib ∈ c.releaseBuildConfiguration.images) :
    ∃ m, runGrouping an ex configs = some m ∧
      (ex.any (fun r => r ib.To) = true →
        ∀ p ∈ m, ∀ q ∈ p.2,
          q.2.projectDirectoryImageBuildStepConfiguration.To ≠ ib.To) ∧
      (ex.any (fun r => r ib.To) = false →
        ∃ p ∈ m, containsKey p.2
          (dockerfileComponentKey c.releaseBuildConfiguration ib) = true) := by
  obtain ⟨ak, hak⟩ := truncate_isSome (sanitize an)
  have hne : configs ≠ [] := by rintro rfl; simp at hc
  refine ⟨[(ak, buildMap (allRecords an ex configs))],
    runGrouping_eq an ex ak hak configs hne, ?_, ?_⟩
  · intro hex p hp q hq
    rw [List.mem_singleton.mp hp] at hq
    obtain ⟨kv, hkv, hq2⟩ := mem_buildMap _ q hq
    obtain ⟨c', _, ib', _, hex', rfl⟩ := mem_allRecords_elim an ex configs kv hkv
    intro hTo
    rw [hq2] at hTo
    simp only [componentRecord] at hTo
    rw [← hTo] at hex
    rw [hex] at hex'
    exact Bool.noConfusion hex'
  · intro hex
    refine ⟨(ak, buildMap (allRecords an ex configs)),
      List.mem_singleton_self _, ?_⟩
    rw [containsKey_buildMap, List.any_eq_true]
    exact ⟨_, mem_allRecords_intro an ex configs c ib hc hib hex, by simp⟩

/-- Claim C10: for a non-empty configuration list the application key entry
is created before any build step is examined, so it is present even when
every step of every document is excluded (or there are no steps), in which
case it maps to the empty component map rather than being absent. -/
theorem application_key_always (an : List Char) (ex : List (List Char → Bool))
    (configs : List Config) (hne : configs ≠ []) :
    ∃ ak m, truncate (sanitize an) = some ak ∧
      runGrouping an ex configs = some m ∧
      containsKey m ak = true ∧
      ((∀ c ∈ configs, ∀ ib ∈ c.releaseBuildConfiguration.images,
          ex.any (fun r => r ib.To) = true) →
        mapGet m ak = some ([] : ComponentMap)) := by
  obtain ⟨ak, hak⟩ := truncate_isSome (sanitize an)
  refine ⟨ak, [(ak, buildMap (allRecords an ex configs))], hak,
    runGrouping_eq an ex ak hak configs hne, by simp [containsKey], ?_⟩
  intro hall
  have hempty : allRecords an ex configs = [] := by
    rw [allRecords, List.flatMap_eq_nil_iff]
    intro c hc
    rw [configRecords, List.map_eq_nil_iff, List.filter_eq_nil_iff]
    intro ib hib
    simp [hall c hc ib hib]
  rw [hempty]
  simp [buildMap, mapGet_cons]

theorem grouping_overwrite_witness :
    ((⟨"web".data⟩ : ProjectDirectoryImageBuildStepConfiguration) ∈
        (⟨⟨⟨"o".data, "r".data, "m".data⟩, [⟨"web".data⟩]⟩, "p1".data⟩ :
          Config).releaseBuildConfiguration.images ∧
      ([] : List (List Char → Bool)).any
        (fun r => r (⟨"web".data⟩ :
          ProjectDirectoryImageBuildStepConfiguration).To) = false) ∧
    (∃ ak inner, truncate (sanitize "app".data) = some ak ∧
      runGrouping "app".data []
        ([] ++ (⟨⟨⟨"o".data, "r".data, "m".data⟩, [⟨"web".data⟩]⟩, "p1".data⟩ : Config) ::
          [] ++ (⟨⟨⟨"o".data, "r".data, "m".data⟩, [⟨"web".data⟩]⟩, "p2".data⟩ : Config) ::
          []) = some [(ak, inner)] ∧
      inner.countP (fun q => q.1 ==
        dockerfileComponentKey
          (⟨⟨⟨"o".data, "r".data, "m".data⟩, [⟨"web".data⟩]⟩, "p2".data⟩ :
            Config).releaseBuildConfiguration ⟨"web".data⟩) = 1 ∧
      mapGet inner
        (dockerfileComponentKey
          (⟨⟨⟨"o".data, "r".data, "m".data⟩, [⟨"web".data⟩]⟩, "p2".data⟩ :
            Config).releaseBuildConfiguration ⟨"web".data⟩) =
        (((allRecords "app".data []
          ([] ++ (⟨⟨⟨"o".data, "r".data, "m".data⟩, [⟨"web".data⟩]⟩, "p1".data⟩ : Config) ::
            [] ++ (⟨⟨⟨"o".data, "r".data, "m".data⟩, [⟨"web".data⟩]⟩, "p2".data⟩ : Config) ::
            [])).filter (fun q => q.1 ==
              dockerfileComponentKey
                (⟨⟨⟨"o".data, "r".data, "m".data⟩, [⟨"web".data⟩]⟩, "p2".data⟩ :
                  Config).releaseBuildConfiguration ⟨"web".data⟩)).getLast?).map
          Prod.snd) :=
  ⟨⟨by decide, rfl⟩,
    grouping_overwrite "app".data [] [] [] []
      ⟨⟨⟨"o".data, "r".data, "m".data⟩, [⟨"web".data⟩]⟩, "p1".data⟩
      ⟨⟨⟨"o".data, "r".data, "m".data⟩, [⟨"web".data⟩]⟩, "p2".data⟩
      ⟨"web".data⟩ ⟨"web".data⟩ (by decide) (by decide) rfl rfl rfl rfl⟩

theorem image_exclusion_witness :
    ((⟨⟨⟨"o".data, "r".data, "m".data⟩, [⟨"web".data⟩, ⟨"secret".data⟩]⟩,
        "p".data⟩ : Config) ∈
        [(⟨⟨⟨"o".data, "r".data, "m".data⟩, [⟨"web".data⟩, ⟨"secret".data⟩]⟩,
          "p".data⟩ : Config)] ∧
      (⟨"secret".data⟩ : ProjectDirectoryImageBuildStepConfiguration) ∈
        (⟨⟨⟨"o".data, "r".data, "m".data⟩, [⟨"web".data⟩, ⟨"secret".data⟩]⟩,
          "p".data⟩ : Config).releaseBuildConfiguration.images) ∧
    (∃ m, runGrouping "app".data [fun p => p == "secret".data]
        [(⟨⟨⟨"o".data, "r".data, "m".data⟩, [⟨"web".data⟩, ⟨"secret".data⟩]⟩,
          "p".data⟩ : Config)] = some m ∧
      (([fun p => p == "secret".data] : List (List Char → Bool)).any
          (fun r => r (⟨"secret".data⟩ :
            ProjectDirectoryImageBuildStepConfiguration).To) = true →
        ∀ p ∈ m, ∀ q ∈ p.2,
          q.2.projectDirectoryImageBuildStepConfiguration.To ≠
            (⟨"secret".data⟩ : ProjectDirectoryImageBuildStepConfiguration).To) ∧
      (([fun p => p == "secret".data] : List (List Char → Bool)).any
          (fun r => r (⟨"secret".data⟩ :
            ProjectDirectoryImageBuildStepConfiguration).To) = false →
        ∃ p ∈ m, containsKey p.2
          (dockerfileComponentKey
            (⟨⟨⟨"o".data, "r".data, "m".data⟩, [⟨"web".data⟩, ⟨"secret".data⟩]⟩,
              "p".data⟩ : Config).releaseBuildConfiguration
            ⟨"secret".data⟩) = true)) :=
  ⟨⟨by decide, by decide⟩,
    image_exclusion "app".data [fun p => p == "secret".data]
      [⟨⟨⟨"o".data, "r".data, "m".data⟩, [⟨"web".data⟩, ⟨"secret".data⟩]⟩, "p".data⟩]
      ⟨⟨⟨"o".data, "r".data, "m".data⟩, [⟨"web".data⟩, ⟨"secret".data⟩]⟩, "p".data⟩
      ⟨"secret".data⟩ (by decide) (by decide)⟩

theorem application_key_always_witness :
    ([(⟨⟨⟨"o".data, "r".data, "m".data⟩, []⟩, "p".data⟩ : Config)] ≠ []) ∧
    (∃ ak m, truncate (sanitize "My App".data) = some ak ∧
      runGrouping "My App".data [fun _ => true]
        [(⟨⟨⟨"o".data, "r".data, "m".data⟩, []⟩, "p".data⟩ : Config)] = some m ∧
      containsKey m ak = true ∧
      ((∀ c ∈ [(⟨⟨⟨"o".data, "r".data, "m".data⟩, []⟩, "p".data⟩ : Config)],
          ∀ ib ∈ c.releaseBuildConfiguration.images,
          ([fun _ => true] : List (List Char → Bool)).any
            (fun r => r ib.To) = true) →
        mapGet m ak = some ([] : ComponentMap))) :=
  ⟨by decide,
    application_key_always "My App".data [fun _ => true]
      [⟨⟨⟨"o".data, "r".data, "m".data⟩, []⟩, "p".data⟩] (by decide)⟩

theorem except_ok_bind {ε α β : Type} (a : α) (f : α → Except ε β) :
    (Except.ok a >>= f : Except ε β) = f a := rfl

theorem except_error_bind {ε α β : Type} (e : ε) (f : α → Except ε β) :
    (Except.error e >>= f : Except ε β) = Except.error e := rfl

theorem collect_go (includes excludes : List (List Char → Bool))
    (pre : List WalkEntry)
    (hpre : ∀ e' ∈ pre, e'.isDir = false →
      shouldIncludeLoop includes excludes e'.matchablePath = true →
      ∃ cfg, e'.parse = .ok cfg) :
    ∀ acc, ∃ acc', pre.foldlM (collectCallback includes excludes) acc =
      Except.ok acc' := by
  induction pre with
  | nil => intro acc; exact ⟨acc, rfl⟩
  | cons e' pre' ih =>
      intro acc
      have hcb : ∃ acc2, collectCallback includes excludes acc e' = Except.ok acc2 := by
        rw [collectCallback]
        by_cases hd : e'.isDir
        · rw [if_pos hd]; exact ⟨acc, rfl⟩
        · rw [if_neg hd]
          by_cases hm : shouldIncludeLoop includes excludes e'.matchablePath = false
          · rw [if_pos hm]; exact ⟨acc, rfl⟩
          · rw [if_neg hm]
            obtain ⟨cfg, hcfg⟩ := hpre e' (List.mem_cons_self _ _)
              (by simpa using hd) (by simpa using hm)
            rw [hcfg]
            exact ⟨_, rfl⟩
      obtain ⟨acc2, hacc2⟩ := hcb
      obtain ⟨acc', hacc'⟩ := ih (fun x hx => hpre x (List.mem_cons_of_mem _ hx)) acc2
      exact ⟨acc', by rw [List.foldlM_cons, hacc2, except_ok_bind, hacc']⟩

/-- Claim C8: when a non-directory entry that passes the include/exclude
filter fails to parse, and every earlier matched file parses, discovery
returns the error wrapping the offending path and cause, returns no list of
configurations, and behaves identically whatever entries come later (they
are never parsed: the walk aborts at the failure). -/
theorem parse_error_aborts (root : List Char)
    (includes excludes : List (List Char → Bool))
    (pre post : List WalkEntry) (e : WalkEntry) (cause : List Char)
    (hdir : e.isDir = false)
    (hmatch : shouldIncludeLoop includes excludes e.matchablePath = true)
    (hparse : e.parse = .error cause)
    (hpre : ∀ e' ∈ pre, e'.isDir = false →
      shouldIncludeLoop includes excludes e'.matchablePath = true →
      ∃ cfg, e'.parse = .ok cfg) :
    collectConfigurations root includes excludes (pre ++ e :: post) =
      .error (.walkFailed root (.parseFailed e.path cause)) ∧
    (∀ configs, collectConfigurations root includes excludes (pre ++ e :: post) ≠
      .ok configs) ∧
    (∀ post', collectConfigurations root includes excludes (pre ++ e :: post') =
      collectConfigurations root includes excludes (pre ++ e :: post)) := by
  have hcb : ∀ acc, collectCallback includes excludes acc e =
      Except.error (.parseFailed e.path cause) := by
    intro acc
    rw [collectCallback, if_neg (by simp [hdir]), if_neg (by simp [hmatch]), hparse]
  have key : ∀ post0,
      collectConfigurations root includes excludes (pre ++ e :: post0) =
        .error (.walkFailed root (.parseFailed e.path cause)) := by
    intro post0
    obtain ⟨acc', hacc'⟩ := collect_go includes excludes pre hpre []
    simp only [collectConfigurations, List.foldlM_append, hacc', except_ok_bind,
      List.foldlM_cons, hcb, except_error_bind]
  exact ⟨key post,
    fun configs h => by rw [key post] at h; exact Except.noConfusion h,
    fun post' => (key post').trans (key post).symm⟩

theorem parse_error_aborts_witness :
    ((⟨"/r/bad.yaml".data, "bad.yaml".data, false,
        .error "not yaml".data⟩ : WalkEntry).isDir = false ∧
      shouldIncludeLoop [fun _ => true] []
        (⟨"/r/bad.yaml".data, "bad.yaml".data, false,
          .error "not yaml".data⟩ : WalkEntry).matchablePath = true) ∧
    (collectConfigurations "/r".data [fun _ => true] []
        ([⟨"/r".data, "".data, true, .error "".data⟩] ++
          (⟨"/r/bad.yaml".data, "bad.yaml".data, false, .error "not yaml".data⟩ : WalkEntry) ::
          [⟨"/r/good.yaml".data, "good.yaml".data, false,
            .ok ⟨⟨"o".data, "r".data, "m".data⟩, []⟩⟩]) =
      .error (.walkFailed "/r".data
        (.parseFailed "/r/bad.yaml".data "not yaml".data)) ∧
    (∀ configs, collectConfigurations "/r".data [fun _ => true] []
        ([⟨"/r".data, "".data, true, .error "".data⟩] ++
          (⟨"/r/bad.yaml".data, "bad.yaml".data, false, .error "not yaml".data⟩ : WalkEntry) ::
          [⟨"/r/good.yaml".data, "good.yaml".data, false,
            .ok ⟨⟨"o".data, "r".data, "m".data⟩, []⟩⟩]) ≠ .ok configs) ∧
    (∀ post', collectConfigurations "/r".data [fun _ => true] []
        ([⟨"/r".data, "".data, true, .error "".data⟩] ++
          (⟨"/r/bad.yaml".data, "bad.yaml".data, false, .error "not yaml".data⟩ : WalkEntry) ::
          post') =
      collectConfigurations "/r".data [fun _ => true] []
        ([⟨"/r".data, "".data, true, .error "".data⟩] ++
          (⟨"/r/bad.yaml".data, "bad.yaml".data, false, .error "not yaml".data⟩ : WalkEntry) ::
          [⟨"/r/good.yaml".data, "good.yaml".data, false,
            .ok ⟨⟨"o".data, "r".data, "m".data⟩, []⟩⟩]))) :=
  ⟨⟨rfl, by decide⟩,
    parse_error_aborts "/r".data [fun _ => true] []
      [⟨"/r".data, "".data, true, .error "".data⟩]
      [⟨"/r/good.yaml".data, "good.yaml".data, false,
        .ok ⟨⟨"o".data, "r".data, "m".data⟩, []⟩⟩]
      ⟨"/r/bad.yaml".data, "bad.yaml".data, false, .error "not yaml".data⟩
      "not yaml".data rfl (by decide) rfl
      (by intro e' he' hd hm
          rw [List.mem_singleton] at he'
          subst he'
          simp at hd)⟩

end KonfluxGen
